import Mathlib

/-!
Verification of the download-completion detector of this repository
(`get_downloaded_filename` in `MFASecurefileDownloader.py`).

The detector is a single-threaded polling loop.  We embed it shallowly:

* Filenames are modeled as lists of characters (`Name`), so that all string
  operations (suffix tests, `os.path.splitext`) are plain structural
  recursion that the kernel can evaluate.
* The filesystem is an `Env`: a time-indexed directory listing
  (`ls`, with `none` modeling `FileNotFoundError` from `os.listdir`) and a
  time-indexed size observation per name (`sz`, with `missing` modeling
  `os.path.exists = False` and `locked` modeling `os.path.getsize` raising
  `OSError`).
* Time is a natural number counting tenths of a second, so that the
  hard-coded `time.sleep(0.1)` on the `OSError` path is one unit; the
  module constants `DOWNLOAD_CHECK_INTERVAL = 1 s` and
  `DOWNLOAD_STABILITY_TIME = 3 s` become 10 and 30 units.  Every
  `time.time()` read inside one loop iteration observes the same instant,
  and time advances exactly by the `time.sleep` calls.
* The loop is written with an explicit fuel argument; `fuelOut` is an
  artifact value that is unreachable whenever the two sleep durations are
  positive (the entry point supplies `timeout + 1` units of fuel and each
  iteration advances time by at least one unit).
* Besides the Python return value, the result records the exit kind
  (which `return` statement fired, at what time, and for a completed
  download the value of `stable_time_start`), the list of files the
  timeout cleanup removed, and two ghost logs: every successful
  `os.path.getsize` sample of the main loop, and every instant at which
  the in-progress (`.crdownload`) branch was taken.
-/

/-- A directory entry name, as its list of characters
(`os.listdir` returns bare names, never paths with separators). -/
abbrev Name := List Char

/-- Result of observing one file at one instant: `missing` models
`os.path.exists` returning `False`, `locked` models `os.path.getsize`
raising `OSError`, `size n` models `os.path.getsize` returning `n`. -/
inductive SizeObs where
  | missing
  | locked
  | size (n : Nat)
deriving DecidableEq

/-- The filesystem as seen by the detector: a directory listing and a
size observation, both indexed by time.  `ls t = none` models
`os.listdir` raising `FileNotFoundError` at instant `t`. -/
structure Env where
  ls : Nat → Option (List Name)
  sz : Nat → Name → SizeObs

/-- Which `return` statement of `get_downloaded_filename` fired.
`completed f tRet tStable` is the success return (line 119) at instant
`tRet` with `stable_time_start = tStable`; `dirGone t` is the
`FileNotFoundError` return (line 74); `timedOut t deleted` is the
fall-through return (line 157), with the files removed by the cleanup;
`exn` models the uncaught exception when the initial `os.listdir`
(line 64) fails; `fuelOut` is the fuel artifact. -/
inductive ExitKind where
  | completed (fname : Name) (tRet tStable : Nat)
  | dirGone (t : Nat)
  | timedOut (t : Nat) (deleted : List Name)
  | exn
  | fuelOut
deriving DecidableEq

/-- Full result of one detection session: the exit kind plus two ghost
logs — `samples` records `(time, size)` for every successful
`os.path.getsize` in the main loop, `markers` records every instant at
which the `.crdownload` (downloading) branch was taken. -/
structure DRes where
  exit : ExitKind
  samples : List (Nat × Nat)
  markers : List Nat
deriving DecidableEq

/-- The Python return value of each exit kind: `some v` means the
function returned `v` (`v = some fname` on success, `v = none` on the
directory-gone and timeout paths); `none` means it did not return
(uncaught exception / fuel artifact). -/
def pyReturn : ExitKind → Option (Option Name)
  | .completed f _ _ => some (some f)
  | .dirGone _ => some none
  | .timedOut _ _ => some none
  | .exn => none
  | .fuelOut => none

/-- The in-progress suffix hard-coded at lines 86 and 143. -/
def crdownloadSuffix : Name := ".crdownload".data

/-- The ignored temp-file suffix hard-coded at line 92. -/
def tmpSuffix : Name := ".tmp".data

/-- Index of the last dot in a name, if any. -/
def lastDotIdx (cs : Name) : Option Nat :=
  ((cs.enum.filter (fun p => p.2 == '.')).map (fun p => p.1)).getLast?

/-- `os.path.splitext(cs)[0]` for a bare filename: cut at the last dot,
except that a name whose characters before that dot are all dots (such
as `.crdownload` itself) is returned whole — CPython skips the leading
dots of the basename. -/
def splitextRoot (cs : Name) : Name :=
  match lastDotIdx cs with
  | none => cs
  | some i => if (cs.take i).any (fun c => c != '.') then cs.take i else cs

/-- The candidate set `current_files - initial_files` (lines 71, 141),
in listing order. -/
def newFiles (names baseline : List Name) : List Name :=
  names.filter (fun n => !(baseline.contains n))

/-- The classification loop over `new_files` (lines 82-93): stop at the
first `.crdownload` entry (downloading), otherwise remember the last
entry that does not end in `.tmp` as the potential final filename.
Returns `(downloading, potential_filename)`. -/
def scanFiles : List Name → Option Name → Bool × Option Name
  | [], pot => (false, pot)
  | f :: rest, pot =>
    if crdownloadSuffix.isSuffixOf f then (true, some (splitextRoot f))
    else if tmpSuffix.isSuffixOf f then scanFiles rest pot
    else scanFiles rest (some f)

/-- The per-marker body of the timeout cleanup (lines 142-152): a
`.crdownload` entry whose final sibling is absent or zero-length is
removed; one whose sibling has positive size is kept; a sibling on which
`os.path.getsize` raises aborts the whole cleanup (the surrounding
`except` at line 154 catches it), keeping the removals made so far.
Returns the list of removed entries. -/
def cleanupLoop (env : Env) (t : Nat) : List Name → List Name
  | [] => []
  | f :: rest =>
    if crdownloadSuffix.isSuffixOf f then
      match env.sz t (splitextRoot f) with
      | .missing => f :: cleanupLoop env t rest
      | .locked => []
      | .size n => if 0 < n then cleanupLoop env t rest else f :: cleanupLoop env t rest
    else cleanupLoop env t rest

/-- The timeout cleanup (lines 139-155): list the directory (a failure
is caught and removes nothing) and walk the post-baseline entries. -/
def cleanupList (env : Env) (baseline : List Name) (t : Nat) : List Name :=
  match env.ls t with
  | none => []
  | some names => cleanupLoop env t (newFiles names baseline)

/-- The polling loop of `get_downloaded_filename` (lines 68-135) plus
the timeout epilogue (lines 137-157).  Arguments after the
configuration `T I E St` (timeout, poll interval, `OSError` retry sleep,
stability threshold): fuel, current instant `t`, `last_size`,
`stable_time_start`, and the two ghost logs. -/
def detectLoop (env : Env) (baseline : List Name) (T I E St : Nat) :
    Nat → Nat → Int → Option Nat → List (Nat × Nat) → List Nat → DRes
  | 0, _, _, _, smpl, mks => ⟨.fuelOut, smpl, mks⟩
  | fuel + 1, t, lastSize, stableStart, smpl, mks =>
    if t < T then
      match env.ls t with
      | none => ⟨.dirGone t, smpl, mks⟩
      | some names =>
        if (newFiles names baseline).isEmpty then
          detectLoop env baseline T I E St fuel (t + I) lastSize stableStart smpl mks
        else
          match scanFiles (newFiles names baseline) none with
          | (true, _) =>
            detectLoop env baseline T I E St fuel (t + I) (-1) none smpl (mks ++ [t])
          | (false, none) =>
            detectLoop env baseline T I E St fuel (t + I) lastSize stableStart smpl mks
          | (false, some pot) =>
            match env.sz t pot with
            | .locked =>
              detectLoop env baseline T I E St fuel (t + E) lastSize stableStart smpl mks
            | .missing =>
              detectLoop env baseline T I E St fuel (t + I) (-1) none smpl mks
            | .size n =>
              if Int.ofNat n = lastSize ∧ 0 < n then
                match stableStart with
                | none =>
                  detectLoop env baseline T I E St fuel (t + I) lastSize (some t)
                    (smpl ++ [(t, n)]) mks
                | some s =>
                  if St ≤ t - s then ⟨.completed pot t s, smpl ++ [(t, n)], mks⟩
                  else
                    detectLoop env baseline T I E St fuel (t + I) lastSize (some s)
                      (smpl ++ [(t, n)]) mks
              else
                detectLoop env baseline T I E St fuel (t + I) (Int.ofNat n) none
                  (smpl ++ [(t, n)]) mks
    else
      ⟨.timedOut t (cleanupList env baseline t), smpl, mks⟩

/-- One full detection session: capture the baseline (line 64; a failure
there is an uncaught exception) and run the loop from instant 0 with
`last_size = -1`, `stable_time_start = None` (lines 65-66) and enough
fuel for positive sleep durations. -/
def detectR (env : Env) (T I E St : Nat) : DRes :=
  match env.ls 0 with
  | none => ⟨.exn, [], []⟩
  | some initialFiles => detectLoop env initialFiles T I E St (T + 1) 0 (-1) none [] []

/-- Module constants of the source, in tenths of a second:
`MAX_WAIT_TIME = 300 s`, `DOWNLOAD_CHECK_INTERVAL = 1 s`,
`DOWNLOAD_STABILITY_TIME = 3 s`, and the literal `time.sleep(0.1)` of
the `OSError` path (line 110). -/
def MAX_WAIT_TIME : Nat := 3000

def DOWNLOAD_CHECK_INTERVAL : Nat := 10

def DOWNLOAD_STABILITY_TIME : Nat := 30

def OSERROR_RETRY_SLEEP : Nat := 1

/-- The Python entry point with its module-constant configuration:
what `get_downloaded_filename(driver, download_dir, timeout)` returns
(`some v` = the function returned `v`). -/
def get_downloaded_filename (env : Env) (timeout : Nat) : Option (Option Name) :=
  pyReturn (detectR env timeout DOWNLOAD_CHECK_INTERVAL OSERROR_RETRY_SLEEP
    DOWNLOAD_STABILITY_TIME).exit

/- Concrete names and environments used by witnesses and counterexamples. -/

def fpdf : Name := "report.pdf".data

def fbin : Name := "file.bin".data

def fbinCr : Name := "file.bin.crdownload".data

def aCr : Name := "a.crdownload".data

def bCr : Name := "b.crdownload".data

def aFinal : Name := "a".data

def bFinal : Name := "b".data

def baseTxt : Name := "base.txt".data

/-- One pre-existing file; `report.pdf` appears at instant 2 and has
constant size 1024 from then on. -/
def envMain : Env where
  ls := fun u => if 2 ≤ u then some [baseTxt, fpdf] else some [baseTxt]
  sz := fun u n => if 2 ≤ u ∧ n = fpdf then .size 1024 else .missing

/-- `report.pdf` appears at instant 1 and is forever a zero-byte file. -/
def envZero : Env where
  ls := fun u => if 1 ≤ u then some [fpdf] else some []
  sz := fun _ n => if n = fpdf then .size 0 else .missing

/-- `file.bin.crdownload` appears at instant 1 and is renamed to
`file.bin` (size 7) at instant 3. -/
def envMarker : Env where
  ls := fun u =>
    if 3 ≤ u then some [fbin] else if 1 ≤ u then some [fbinCr] else some []
  sz := fun u n => if 3 ≤ u ∧ n = fbin then .size 7 else .missing

/-- A directory in which nothing ever appears. -/
def envNothing : Env where
  ls := fun _ => some [baseTxt]
  sz := fun _ _ => .missing

/-- A directory that vanishes at instant 1. -/
def envVanish : Env where
  ls := fun u => if 1 ≤ u then none else some []
  sz := fun _ _ => .missing

/-- `report.pdf` appears at instant 1 with constant size 100. -/
def envGrow : Env where
  ls := fun u => if 1 ≤ u then some [fpdf] else some []
  sz := fun u n => if 1 ≤ u ∧ n = fpdf then .size 100 else .missing

/-- Two markers appear at instant 1; the final sibling of
`a.crdownload` makes `os.path.getsize` raise, that of `b.crdownload` is
absent. -/
def envCleanup : Env where
  ls := fun u => if 1 ≤ u then some [aCr, bCr] else some []
  sz := fun _ n => if n = aFinal then .locked else .missing

/-- Two markers appear at instant 1; the final sibling of
`a.crdownload` is absent, that of `b.crdownload` exists with size 9. -/
def envCleanup2 : Env where
  ls := fun u => if 1 ≤ u then some [aCr, bCr, bFinal] else some []
  sz := fun _ n => if n = bFinal then .size 9 else .missing

/-!
Step lemmas: one rewrite per branch of a loop iteration, in the order
the Python code tests them.
-/

section StepLemmas

variable {env : Env} {b : List Name} {T I E St fuel t : Nat} {last : Int}
  {ss : Option Nat} {smpl : List (Nat × Nat)} {mks : List Nat}

theorem step_fuel :
    detectLoop env b T I E St 0 t last ss smpl mks = ⟨.fuelOut, smpl, mks⟩ := rfl

theorem step_timeout (hT : ¬ t < T) :
    detectLoop env b T I E St (fuel + 1) t last ss smpl mks =
      ⟨.timedOut t (cleanupList env b t), smpl, mks⟩ := by
  simp only [detectLoop, if_neg hT]

theorem step_dirgone (hT : t < T) (hls : env.ls t = none) :
    detectLoop env b T I E St (fuel + 1) t last ss smpl mks = ⟨.dirGone t, smpl, mks⟩ := by
  simp only [detectLoop, if_pos hT, hls]

theorem step_nonew {names : List Name} (hT : t < T) (hls : env.ls t = some names)
    (hnf : newFiles names b = []) :
    detectLoop env b T I E St (fuel + 1) t last ss smpl mks =
      detectLoop env b T I E St fuel (t + I) last ss smpl mks := by
  simp only [detectLoop, if_pos hT, hls, hnf, List.isEmpty_nil, if_true]

theorem step_marker {names : List Name} {po : Option Name} (hT : t < T)
    (hls : env.ls t = some names) (hne : (newFiles names b).isEmpty = false)
    (hscan : scanFiles (newFiles names b) none = (true, po)) :
    detectLoop env b T I E St (fuel + 1) t last ss smpl mks =
      detectLoop env b T I E St fuel (t + I) (-1) none smpl (mks ++ [t]) := by
  simp only [detectLoop, if_pos hT, hls, hne, hscan, Bool.false_eq_true, if_false]

theorem step_nopot {names : List Name} (hT : t < T)
    (hls : env.ls t = some names) (hne : (newFiles names b).isEmpty = false)
    (hscan : scanFiles (newFiles names b) none = (false, none)) :
    detectLoop env b T I E St (fuel + 1) t last ss smpl mks =
      detectLoop env b T I E St fuel (t + I) last ss smpl mks := by
  simp only [detectLoop, if_pos hT, hls, hne, hscan, Bool.false_eq_true, if_false]

theorem step_locked {names : List Name} {pot : Name} (hT : t < T)
    (hls : env.ls t = some names) (hne : (newFiles names b).isEmpty = false)
    (hscan : scanFiles (newFiles names b) none = (false, some pot))
    (hsz : env.sz t pot = .locked) :
    detectLoop env b T I E St (fuel + 1) t last ss smpl mks =
      detectLoop env b T I E St fuel (t + E) last ss smpl mks := by
  simp only [detectLoop, if_pos hT, hls, hne, hscan, hsz, Bool.false_eq_true, if_false]

theorem step_missing {names : List Name} {pot : Name} (hT : t < T)
    (hls : env.ls t = some names) (hne : (newFiles names b).isEmpty = false)
    (hscan : scanFiles (newFiles names b) none = (false, some pot))
    (hsz : env.sz t pot = .missing) :
    detectLoop env b T I E St (fuel + 1) t last ss smpl mks =
      detectLoop env b T I E St fuel (t + I) (-1) none smpl mks := by
  simp only [detectLoop, if_pos hT, hls, hne, hscan, hsz, Bool.false_eq_true, if_false]

theorem step_reset {names : List Name} {pot : Name} {n : Nat} (hT : t < T)
    (hls : env.ls t = some names) (hne : (newFiles names b).isEmpty = false)
    (hscan : scanFiles (newFiles names b) none = (false, some pot))
    (hsz : env.sz t pot = .size n) (hcond : ¬ (Int.ofNat n = last ∧ 0 < n)) :
    detectLoop env b T I E St (fuel + 1) t last ss smpl mks =
      detectLoop env b T I E St fuel (t + I) (Int.ofNat n) none (smpl ++ [(t, n)]) mks := by
  simp only [detectLoop, if_pos hT, hls, hne, hscan, hsz, Bool.false_eq_true, if_false,
    if_neg hcond]

theorem step_settimer {names : List Name} {pot : Name} {n : Nat} (hT : t < T)
    (hls : env.ls t = some names) (hne : (newFiles names b).isEmpty = false)
    (hscan : scanFiles (newFiles names b) none = (false, some pot))
    (hsz : env.sz t pot = .size n) (hcond : Int.ofNat n = last ∧ 0 < n) :
    detectLoop env b T I E St (fuel + 1) t last none smpl mks =
      detectLoop env b T I E St fuel (t + I) last (some t) (smpl ++ [(t, n)]) mks := by
  simp only [detectLoop, if_pos hT, hls, hne, hscan, hsz, Bool.false_eq_true, if_false,
    if_pos hcond]

theorem step_return {names : List Name} {pot : Name} {n s : Nat} (hT : t < T)
    (hls : env.ls t = some names) (hne : (newFiles names b).isEmpty = false)
    (hscan : scanFiles (newFiles names b) none = (false, some pot))
    (hsz : env.sz t pot = .size n) (hcond : Int.ofNat n = last ∧ 0 < n)
    (hst : St ≤ t - s) :
    detectLoop env b T I E St (fuel + 1) t last (some s) smpl mks =
      ⟨.completed pot t s, smpl ++ [(t, n)], mks⟩ := by
  simp only [detectLoop, if_pos hT, hls, hne, hscan, hsz, Bool.false_eq_true, if_false,
    if_pos hcond, if_pos hst]

theorem step_wait {names : List Name} {pot : Name} {n s : Nat} (hT : t < T)
    (hls : env.ls t = some names) (hne : (newFiles names b).isEmpty = false)
    (hscan : scanFiles (newFiles names b) none = (false, some pot))
    (hsz : env.sz t pot = .size n) (hcond : Int.ofNat n = last ∧ 0 < n)
    (hst : ¬ St ≤ t - s) :
    detectLoop env b T I E St (fuel + 1) t last (some s) smpl mks =
      detectLoop env b T I E St fuel (t + I) last (some s) (smpl ++ [(t, n)]) mks := by
  simp only [detectLoop, if_pos hT, hls, hne, hscan, hsz, Bool.false_eq_true, if_false,
    if_pos hcond, if_neg hst]

end StepLemmas

/-!
Structural facts about the candidate scan and the candidate set.
-/

theorem scanFiles_final : ∀ (names : List Name) (pot g : Name),
    scanFiles names (some pot) = (false, some g) →
    (g ∈ names ∧ crdownloadSuffix.isSuffixOf g = false ∧ tmpSuffix.isSuffixOf g = false)
      ∨ pot = g := by
  intro names
  induction names with
  | nil =>
    intro pot g h
    simp only [scanFiles, Prod.mk.injEq, Option.some.injEq] at h
    exact Or.inr h.2
  | cons f rest ih =>
    intro pot g h
    simp only [scanFiles] at h
    cases hcr : crdownloadSuffix.isSuffixOf f with
    | true => rw [hcr] at h; simp at h
    | false =>
      rw [hcr] at h
      cases htmp : tmpSuffix.isSuffixOf f with
      | true =>
        rw [htmp] at h
        simp only [Bool.false_eq_true, if_false, if_true] at h
        rcases ih pot g h with ⟨hm, h1, h2⟩ | hp
        · exact Or.inl ⟨List.mem_cons_of_mem _ hm, h1, h2⟩
        · exact Or.inr hp
      | false =>
        rw [htmp] at h
        simp only [Bool.false_eq_true, if_false] at h
        rcases ih f g h with ⟨hm, h1, h2⟩ | hp
        · exact Or.inl ⟨List.mem_cons_of_mem _ hm, h1, h2⟩
        · subst hp
          exact Or.inl ⟨List.mem_cons_self _ _, hcr, htmp⟩

theorem scanFiles_start : ∀ {names : List Name} {g : Name},
    scanFiles names none = (false, some g) →
    g ∈ names ∧ crdownloadSuffix.isSuffixOf g = false ∧ tmpSuffix.isSuffixOf g = false := by
  intro names
  induction names with
  | nil => intro g h; simp [scanFiles] at h
  | cons f rest ih =>
    intro g h
    simp only [scanFiles] at h
    cases hcr : crdownloadSuffix.isSuffixOf f with
    | true => rw [hcr] at h; simp at h
    | false =>
      rw [hcr] at h
      cases htmp : tmpSuffix.isSuffixOf f with
      | true =>
        rw [htmp] at h
        simp only [Bool.false_eq_true, if_false, if_true] at h
        rcases ih h with ⟨hm, h1, h2⟩
        exact ⟨List.mem_cons_of_mem _ hm, h1, h2⟩
      | false =>
        rw [htmp] at h
        simp only [Bool.false_eq_true, if_false] at h
        rcases scanFiles_final rest f g h with ⟨hm, h1, h2⟩ | hp
        · exact ⟨List.mem_cons_of_mem _ hm, h1, h2⟩
        · subst hp
          exact ⟨List.mem_cons_self _ _, hcr, htmp⟩

theorem mem_newFiles {g : Name} {names b : List Name} (h : g ∈ newFiles names b) :
    g ∈ names ∧ g ∉ b := by
  have h2 := List.mem_filter.mp h
  refine ⟨h2.1, fun hg => ?_⟩
  have hb := h2.2
  simp only [Bool.not_eq_true'] at hb
  exact absurd (List.elem_eq_true_of_mem hg) (by simp [List.contains] at hb ⊢; exact hb)

/-!
Master lemma: any successful return happens at an instant `tr < timeout`
at which the returned name is a non-suffixed post-baseline candidate
whose observed size is positive, with a full stability window
`St ≤ tr - stable_time_start` behind it.
-/

theorem detectLoop_completed_facts (env : Env) (b : List Name) (T I E St : Nat) :
    ∀ (fuel : Nat) (t : Nat) (last : Int) (ss : Option Nat) (smpl : List (Nat × Nat))
      (mks : List Nat) (g : Name) (tr s : Nat),
      (detectLoop env b T I E St fuel t last ss smpl mks).exit = .completed g tr s →
      tr < T ∧ St ≤ tr - s ∧
      (∃ names, env.ls tr = some names ∧ g ∈ newFiles names b ∧
        crdownloadSuffix.isSuffixOf g = false ∧ tmpSuffix.isSuffixOf g = false) ∧
      ∃ n, 0 < n ∧ env.sz tr g = .size n := by
  intro fuel
  induction fuel with
  | zero =>
    intro t last ss smpl mks g tr s h
    rw [step_fuel] at h
    simp at h
  | succ fuel ih =>
    intro t last ss smpl mks g tr s h
    by_cases hT : t < T
    · cases hls : env.ls t with
      | none =>
        rw [step_dirgone hT hls] at h
        simp at h
      | some names =>
        cases hne : (newFiles names b).isEmpty with
        | true =>
          rw [step_nonew hT hls (List.isEmpty_iff.mp hne)] at h
          exact ih _ _ _ _ _ _ _ _ h
        | false =>
          rcases hscan0 : scanFiles (newFiles names b) none with ⟨down, po⟩
          cases down with
          | true =>
            rw [step_marker hT hls hne hscan0] at h
            exact ih _ _ _ _ _ _ _ _ h
          | false =>
            cases po with
            | none =>
              rw [step_nopot hT hls hne hscan0] at h
              exact ih _ _ _ _ _ _ _ _ h
            | some pot =>
              cases hsz : env.sz t pot with
              | locked =>
                rw [step_locked hT hls hne hscan0 hsz] at h
                exact ih _ _ _ _ _ _ _ _ h
              | missing =>
                rw [step_missing hT hls hne hscan0 hsz] at h
                exact ih _ _ _ _ _ _ _ _ h
              | size n =>
                by_cases hcond : Int.ofNat n = last ∧ 0 < n
                · cases ss with
                  | none =>
                    rw [step_settimer hT hls hne hscan0 hsz hcond] at h
                    exact ih _ _ _ _ _ _ _ _ h
                  | some s0 =>
                    by_cases hst : St ≤ t - s0
                    · rw [step_return hT hls hne hscan0 hsz hcond hst] at h
                      simp only [ExitKind.completed.injEq] at h
                      obtain ⟨rfl, rfl, rfl⟩ := h
                      have hmem := scanFiles_start hscan0
                      exact ⟨hT, hst, ⟨names, hls, hmem.1, hmem.2.1, hmem.2.2⟩,
                        n, hcond.2, hsz⟩
                    · rw [step_wait hT hls hne hscan0 hsz hcond hst] at h
                      exact ih _ _ _ _ _ _ _ _ h
                · rw [step_reset hT hls hne hscan0 hsz hcond] at h
                  exact ih _ _ _ _ _ _ _ _ h
    · rw [step_timeout hT] at h
      simp at h

/-!
Ghost-log invariant: while `stable_time_start = some s0` the loop state
remembers a positive size `S` equal to every size sampled since `s0`,
and every downloading instant predates `s0`.  Hence a completed session
saw a constant positive sampled size throughout its closing stability
window, and no downloading instant inside it.
-/

theorem detectLoop_stability (env : Env) (b : List Name) (T I E St : Nat) (hI : 1 ≤ I) :
    ∀ (fuel t : Nat) (last : Int) (ss : Option Nat) (smpl : List (Nat × Nat)) (mks : List Nat),
      (∀ p ∈ smpl, p.1 < t) →
      (∀ u ∈ mks, u < t) →
      (∀ s0, ss = some s0 → ∃ S, 0 < S ∧ last = Int.ofNat S ∧
        (∀ p ∈ smpl, s0 ≤ p.1 → p.2 = S) ∧ ∀ u ∈ mks, u < s0) →
      ∀ (g : Name) (tr s : Nat),
        (detectLoop env b T I E St fuel t last ss smpl mks).exit = .completed g tr s →
        ∃ S, 0 < S ∧
          (∀ p ∈ (detectLoop env b T I E St fuel t last ss smpl mks).samples,
            s ≤ p.1 → p.2 = S) ∧
          ∀ u ∈ (detectLoop env b T I E St fuel t last ss smpl mks).markers, u < s := by
  intro fuel
  induction fuel with
  | zero =>
    intro t last ss smpl mks _ _ _ g tr s h
    rw [step_fuel] at h
    simp at h
  | succ fuel ih =>
    intro t last ss smpl mks inv1 inv2 inv3 g tr s h
    have mono1 : ∀ (d : Nat), ∀ p ∈ smpl, p.1 < t + d :=
      fun d p hp => Nat.lt_of_lt_of_le (inv1 p hp) (Nat.le_add_right t d)
    have mono2 : ∀ (d : Nat), ∀ u ∈ mks, u < t + d :=
      fun d u hu => Nat.lt_of_lt_of_le (inv2 u hu) (Nat.le_add_right t d)
    by_cases hT : t < T
    · cases hls : env.ls t with
      | none =>
        rw [step_dirgone hT hls] at h
        simp at h
      | some names =>
        cases hne : (newFiles names b).isEmpty with
        | true =>
          rw [step_nonew hT hls (List.isEmpty_iff.mp hne)] at h ⊢
          exact ih _ _ _ _ _ (mono1 I) (mono2 I) inv3 g tr s h
        | false =>
          rcases hscan0 : scanFiles (newFiles names b) none with ⟨down, po⟩
          cases down with
          | true =>
            rw [step_marker hT hls hne hscan0] at h ⊢
            refine ih _ _ _ _ _ (mono1 I) ?_ (by simp) g tr s h
            intro u hu
            rcases List.mem_append.mp hu with hu | hu
            · exact mono2 I u hu
            · simp only [List.mem_singleton] at hu
              omega
          | false =>
            cases po with
            | none =>
              rw [step_nopot hT hls hne hscan0] at h ⊢
              exact ih _ _ _ _ _ (mono1 I) (mono2 I) inv3 g tr s h
            | some pot =>
              cases hsz : env.sz t pot with
              | locked =>
                rw [step_locked hT hls hne hscan0 hsz] at h ⊢
                exact ih _ _ _ _ _ (mono1 E) (mono2 E) inv3 g tr s h
              | missing =>
                rw [step_missing hT hls hne hscan0 hsz] at h ⊢
                exact ih _ _ _ _ _ (mono1 I) (mono2 I) (by simp) g tr s h
              | size n =>
                have smono : ∀ (S1 : Nat), last = Int.ofNat S1 → Int.ofNat n = last →
                    n = S1 := by
                  intro S1 h1 h2
                  rw [h1] at h2
                  exact Int.ofNat.inj h2
                by_cases hcond : Int.ofNat n = last ∧ 0 < n
                · cases ss with
                  | none =>
                    rw [step_settimer hT hls hne hscan0 hsz hcond] at h ⊢
                    refine ih _ _ _ _ _ ?_ (mono2 I) ?_ g tr s h
                    · intro p hp
                      rcases List.mem_append.mp hp with hp | hp
                      · exact mono1 I p hp
                      · simp only [List.mem_singleton] at hp
                        subst hp
                        omega
                    · intro s0 hs0
                      simp only [Option.some.injEq] at hs0
                      subst hs0
                      refine ⟨n, hcond.2, hcond.1.symm, ?_, inv2⟩
                      intro p hp hle
                      rcases List.mem_append.mp hp with hp | hp
                      · exact absurd hle (by have := inv1 p hp; omega)
                      · simp only [List.mem_singleton] at hp
                        subst hp
                        rfl
                  | some s0 =>
                    obtain ⟨S, hS, hlast, hsmpl, hmks⟩ := inv3 s0 rfl
                    have hnS : n = S := smono S hlast hcond.1
                    by_cases hst : St ≤ t - s0
                    · rw [step_return hT hls hne hscan0 hsz hcond hst] at h ⊢
                      simp only [ExitKind.completed.injEq] at h
                      obtain ⟨rfl, rfl, rfl⟩ := h
                      refine ⟨S, hS, ?_, hmks⟩
                      intro p hp hle
                      rcases List.mem_append.mp hp with hp | hp
                      · exact hsmpl p hp hle
                      · simp only [List.mem_singleton] at hp
                        subst hp
                        exact hnS
                    · rw [step_wait hT hls hne hscan0 hsz hcond hst] at h ⊢
                      refine ih _ _ _ _ _ ?_ (mono2 I) ?_ g tr s h
                      · intro p hp
                        rcases List.mem_append.mp hp with hp | hp
                        · exact mono1 I p hp
                        · simp only [List.mem_singleton] at hp
                          subst hp
                          omega
                      · intro s1 hs1
                        simp only [Option.some.injEq] at hs1
                        subst hs1
                        refine ⟨S, hS, hlast, ?_, hmks⟩
                        intro p hp hle
                        rcases List.mem_append.mp hp with hp | hp
                        · exact hsmpl p hp hle
                        · simp only [List.mem_singleton] at hp
                          subst hp
                          exact hnS
                · rw [step_reset hT hls hne hscan0 hsz hcond] at h ⊢
                  refine ih _ _ _ _ _ ?_ (mono2 I) (by simp) g tr s h
                  intro p hp
                  rcases List.mem_append.mp hp with hp | hp
                  · exact mono1 I p hp
                  · simp only [List.mem_singleton] at hp
                    subst hp
                    omega
    · rw [step_timeout hT] at h
      simp at h

/-!
The timeout exit: its deletions are exactly the cleanup walk at the
exit instant, and the exit instant is past the deadline.
-/

theorem detectLoop_timedOut (env : Env) (b : List Name) (T I E St : Nat) :
    ∀ (fuel t : Nat) (last : Int) (ss : Option Nat) (smpl : List (Nat × Nat)) (mks : List Nat)
      (te : Nat) (del : List Name),
      (detectLoop env b T I E St fuel t last ss smpl mks).exit = .timedOut te del →
      del = cleanupList env b te ∧ T ≤ te := by
  intro fuel
  induction fuel with
  | zero =>
    intro t last ss smpl mks te del h
    rw [step_fuel] at h
    simp at h
  | succ fuel ih =>
    intro t last ss smpl mks te del h
    by_cases hT : t < T
    · cases hls : env.ls t with
      | none =>
        rw [step_dirgone hT hls] at h
        simp at h
      | some names =>
        cases hne : (newFiles names b).isEmpty with
        | true =>
          rw [step_nonew hT hls (List.isEmpty_iff.mp hne)] at h
          exact ih _ _ _ _ _ _ _ h
        | false =>
          rcases hscan0 : scanFiles (newFiles names b) none with ⟨down, po⟩
          cases down with
          | true =>
            rw [step_marker hT hls hne hscan0] at h
            exact ih _ _ _ _ _ _ _ h
          | false =>
            cases po with
            | none =>
              rw [step_nopot hT hls hne hscan0] at h
              exact ih _ _ _ _ _ _ _ h
            | some pot =>
              cases hsz : env.sz t pot with
              | locked =>
                rw [step_locked hT hls hne hscan0 hsz] at h
                exact ih _ _ _ _ _ _ _ h
              | missing =>
                rw [step_missing hT hls hne hscan0 hsz] at h
                exact ih _ _ _ _ _ _ _ h
              | size n =>
                by_cases hcond : Int.ofNat n = last ∧ 0 < n
                · cases ss with
                  | none =>
                    rw [step_settimer hT hls hne hscan0 hsz hcond] at h
                    exact ih _ _ _ _ _ _ _ h
                  | some s0 =>
                    by_cases hst : St ≤ t - s0
                    · rw [step_return hT hls hne hscan0 hsz hcond hst] at h
                      simp at h
                    · rw [step_wait hT hls hne hscan0 hsz hcond hst] at h
                      exact ih _ _ _ _ _ _ _ h
                · rw [step_reset hT hls hne hscan0 hsz hcond] at h
                  exact ih _ _ _ _ _ _ _ h
    · rw [step_timeout hT] at h
      simp only [ExitKind.timedOut.injEq] at h
      obtain ⟨rfl, rfl⟩ := h
      exact ⟨rfl, by omega⟩

/-!
Runs in which no candidate ever appears: every iteration takes the
empty branch, so the session times out and the cleanup removes nothing.
-/

theorem detectLoop_no_candidates (env : Env) (b : List Name) (T I E St : Nat) (hI : 1 ≤ I)
    (hrun : ∀ u, ∃ names, env.ls u = some names ∧ newFiles names b = []) :
    ∀ (fuel t : Nat) (last : Int) (ss : Option Nat) (smpl : List (Nat × Nat)) (mks : List Nat),
      1 ≤ fuel → T + 1 ≤ t + fuel →
      ∃ te, (detectLoop env b T I E St fuel t last ss smpl mks).exit = .timedOut te [] := by
  intro fuel
  induction fuel with
  | zero =>
    intro t last ss smpl mks h1 _
    omega
  | succ fuel ih =>
    intro t last ss smpl mks _ hfuel
    obtain ⟨names, hls, hnf⟩ := hrun t
    by_cases hT : t < T
    · rw [step_nonew hT hls hnf]
      exact ih (t + I) last ss smpl mks (by omega) (by omega)
    · rw [step_timeout hT]
      refine ⟨t, ?_⟩
      simp only [cleanupList, hls, hnf, cleanupLoop]

/-!
Runs in which the directory vanishes for good at instant `tv` after a
candidate-free prefix: the first poll at or after `tv` returns
immediately through the `FileNotFoundError` branch.
-/

theorem detectLoop_vanish (env : Env) (b : List Name) (T I E St tv : Nat) (hI : 1 ≤ I)
    (hpre : ∀ u, u < tv → ∃ names, env.ls u = some names ∧ newFiles names b = [])
    (hgone : ∀ u, tv ≤ u → env.ls u = none) (hTv : tv + I ≤ T) :
    ∀ (fuel t : Nat) (last : Int) (ss : Option Nat) (smpl : List (Nat × Nat)) (mks : List Nat),
      1 ≤ fuel → T + 1 ≤ t + fuel → t < tv + I →
      ∃ tg, tv ≤ tg ∧ tg < tv + I ∧
        (detectLoop env b T I E St fuel t last ss smpl mks).exit = .dirGone tg := by
  intro fuel
  induction fuel with
  | zero =>
    intro t last ss smpl mks h1 _ _
    omega
  | succ fuel ih =>
    intro t last ss smpl mks _ hfuel htv
    by_cases hv : tv ≤ t
    · have hT : t < T := by omega
      rw [step_dirgone hT (hgone t hv)]
      exact ⟨t, hv, htv, rfl⟩
    · obtain ⟨names, hls, hnf⟩ := hpre t (by omega)
      have hT : t < T := by omega
      rw [step_nonew hT hls hnf]
      exact ih (t + I) last ss smpl mks (by omega) (by omega) (by omega)

/-!
The cleanup walk: with no aborting sibling in the list, a marker with
an absent or zero-length final sibling is removed; a marker with a
positive-size final sibling is never removed (aborts included).
-/

theorem cleanupLoop_deletes (env : Env) (t : Nat) :
    ∀ (l : List Name) (f : Name), f ∈ l →
      crdownloadSuffix.isSuffixOf f = true →
      (∀ g ∈ l, crdownloadSuffix.isSuffixOf g = true → env.sz t (splitextRoot g) ≠ .locked) →
      (env.sz t (splitextRoot f) = .missing ∨ env.sz t (splitextRoot f) = .size 0) →
      f ∈ cleanupLoop env t l := by
  intro l
  induction l with
  | nil =>
    intro f hf
    simp at hf
  | cons g rest ih =>
    intro f hf hsuf hnl habs
    simp only [cleanupLoop]
    by_cases hg : crdownloadSuffix.isSuffixOf g = true
    · rw [if_pos hg]
      cases hszg : env.sz t (splitextRoot g) with
      | locked => exact absurd hszg (hnl g (List.mem_cons_self _ _) hg)
      | missing =>
        simp only [hszg]
        rcases List.mem_cons.mp hf with rfl | hf2
        · exact List.mem_cons_self _ _
        · exact List.mem_cons_of_mem _
            (ih f hf2 hsuf (fun x hx hx2 => hnl x (List.mem_cons_of_mem _ hx) hx2) habs)
      | size m =>
        simp only [hszg]
        by_cases hm : 0 < m
        · rw [if_pos hm]
          rcases List.mem_cons.mp hf with rfl | hf2
          · rcases habs with h | h <;> rw [hszg] at h <;> simp at h
            omega
          · exact ih f hf2 hsuf (fun x hx hx2 => hnl x (List.mem_cons_of_mem _ hx) hx2) habs
        · rw [if_neg hm]
          rcases List.mem_cons.mp hf with rfl | hf2
          · exact List.mem_cons_self _ _
          · exact List.mem_cons_of_mem _
              (ih f hf2 hsuf (fun x hx hx2 => hnl x (List.mem_cons_of_mem _ hx) hx2) habs)
    · rw [if_neg hg]
      rcases List.mem_cons.mp hf with rfl | hf2
      · exact absurd hsuf hg
      · exact ih f hf2 hsuf (fun x hx hx2 => hnl x (List.mem_cons_of_mem _ hx) hx2) habs

theorem cleanupLoop_keeps (env : Env) (t : Nat) :
    ∀ (l : List Name) (f : Name) (n : Nat), 0 < n →
      env.sz t (splitextRoot f) = .size n →
      f ∉ cleanupLoop env t l := by
  intro l
  induction l with
  | nil =>
    intro f n _ _
    simp [cleanupLoop]
  | cons g rest ih =>
    intro f n hn hszf
    simp only [cleanupLoop]
    by_cases hg : crdownloadSuffix.isSuffixOf g = true
    · rw [if_pos hg]
      cases hszg : env.sz t (splitextRoot g) with
      | locked => simp
      | missing =>
        simp only [hszg]
        intro hmem
        rcases List.mem_cons.mp hmem with rfl | hmem2
        · rw [hszf] at hszg
          cases hszg
        · exact ih f n hn hszf hmem2
      | size m =>
        simp only [hszg]
        by_cases hm : 0 < m
        · rw [if_pos hm]
          exact ih f n hn hszf
        · rw [if_neg hm]
          intro hmem
          rcases List.mem_cons.mp hmem with rfl | hmem2
          · rw [hszf] at hszg
            injection hszg with hval
            omega
          · exact ih f n hn hszf hmem2
    · rw [if_neg hg]
      exact ih f n hn hszf

/-!
Completion, stable phase: once the only candidate is a single
non-suffixed name `f` of constant positive size `S`, the loop returns
`Completed f` from any state, provided enough of the deadline remains.
The disjunctive precondition tracks the three reachable state shapes:
a running timer over `S`, `last_size = S` with no timer, or anything at
all with two extra poll intervals of slack.
-/

theorem detectLoop_stable_completes (env : Env) (b : List Name) (T I E St : Nat)
    (f : Name) (S ts : Nat) (hI : 1 ≤ I) (hSt : 1 ≤ St)
    (hnew : ∀ u, ts ≤ u → ∃ names, env.ls u = some names ∧ newFiles names b = [f])
    (hsz : ∀ u, ts ≤ u → env.sz u f = .size S) (hS : 0 < S)
    (hcr : crdownloadSuffix.isSuffixOf f = false)
    (htmp : tmpSuffix.isSuffixOf f = false) :
    ∀ (fuel t : Nat) (last : Int) (ss : Option Nat) (smpl : List (Nat × Nat)) (mks : List Nat),
      1 ≤ fuel → T + 1 ≤ t + fuel → ts ≤ t →
      (∀ s0, ss = some s0 → s0 ≤ t) →
      ((∃ s0, ss = some s0 ∧ last = Int.ofNat S ∧ t ≤ s0 + St + I - 1 ∧ s0 + St + I ≤ T)
        ∨ (last = Int.ofNat S ∧ ss = none ∧ t + St + I ≤ T)
        ∨ t + St + 2 * I ≤ T) →
      ∃ tr s, (detectLoop env b T I E St fuel t last ss smpl mks).exit = .completed f tr s := by
  intro fuel
  induction fuel with
  | zero =>
    intro t last ss smpl mks h1 _ _ _ _
    omega
  | succ fuel ih =>
    intro t last ss smpl mks _ hfuel hts hss hstate
    have hT : t < T := by
      rcases hstate with ⟨s0, hs0, _, hle, hbd⟩ | ⟨_, _, hbd⟩ | hbd <;> omega
    obtain ⟨names, hls, hnf⟩ := hnew t hts
    have hne : (newFiles names b).isEmpty = false := by rw [hnf]; rfl
    have hscan : scanFiles (newFiles names b) none = (false, some f) := by
      rw [hnf]
      simp [scanFiles, hcr, htmp]
    have hszt : env.sz t f = .size S := hsz t hts
    by_cases hlast : last = Int.ofNat S
    · have hcond : Int.ofNat S = last ∧ 0 < S := ⟨hlast.symm, hS⟩
      cases hssv : ss with
      | none =>
        have hbd : t + St + I ≤ T := by
          rcases hstate with ⟨s0, hs0, _⟩ | ⟨_, _, hbd⟩ | hbd
          · rw [hssv] at hs0; cases hs0
          · exact hbd
          · omega
        rw [step_settimer hT hls hne hscan hszt hcond]
        refine ih (t + I) last (some t) _ _ (by omega) (by omega) (by omega) ?_ ?_
        · intro s0 hs0
          simp only [Option.some.injEq] at hs0
          omega
        · exact Or.inl ⟨t, rfl, hlast, by omega, by omega⟩
      | some s0 =>
        have hs0t : s0 ≤ t := hss s0 hssv
        by_cases hst : St ≤ t - s0
        · rw [step_return hT hls hne hscan hszt hcond hst]
          exact ⟨t, s0, rfl⟩
        · have hbd : s0 + St + I ≤ T := by
            rcases hstate with ⟨s1, hs1, _, _, hbd⟩ | ⟨_, hn, _⟩ | hbd
            · rw [hssv] at hs1
              simp only [Option.some.injEq] at hs1
              omega
            · rw [hssv] at hn; cases hn
            · omega
          rw [step_wait hT hls hne hscan hszt hcond hst]
          refine ih (t + I) last (some s0) _ _ (by omega) (by omega) (by omega) ?_ ?_
          · intro s1 hs1
            simp only [Option.some.injEq] at hs1
            omega
          · exact Or.inl ⟨s0, rfl, hlast, by omega, hbd⟩
    · have hcond : ¬ (Int.ofNat S = last ∧ 0 < S) := fun hc => hlast hc.1.symm
      have hC : t + St + 2 * I ≤ T := by
        rcases hstate with ⟨s0, _, hl, _⟩ | ⟨hl, _⟩ | hbd
        · exact absurd hl hlast
        · exact absurd hl hlast
        · exact hbd
      rw [step_reset hT hls hne hscan hszt hcond]
      refine ih (t + I) (Int.ofNat S) none _ _ (by omega) (by omega) (by omega)
        (by intro s0 hs0; cases hs0) ?_
      exact Or.inr (Or.inl ⟨rfl, rfl, by omega⟩)

/-!
Completion, whole session: before the candidate stabilizes the loop
merely updates its state (or even returns early if the pre-phase sizes
happen to repeat), and once the stable phase is reached the previous
lemma finishes.  `ta` is the instant the single candidate appears,
`ts ≥ ta` the instant from which its size is the constant `S > 0`.
-/

theorem detectLoop_session_completes (env : Env) (b : List Name) (T I E St : Nat)
    (f : Name) (S ta ts : Nat) (hI : 1 ≤ I) (hSt : 1 ≤ St)
    (hpre : ∀ u, u < ta → ∃ names, env.ls u = some names ∧ newFiles names b = [])
    (hnew : ∀ u, ta ≤ u → ∃ names, env.ls u = some names ∧ newFiles names b = [f])
    (hnl : ∀ u, u < ts → env.sz u f ≠ .locked)
    (hsz : ∀ u, ts ≤ u → env.sz u f = .size S) (hS : 0 < S)
    (hcr : crdownloadSuffix.isSuffixOf f = false)
    (htmp : tmpSuffix.isSuffixOf f = false)
    (hta : ta ≤ ts) (hTbd : ts + St + 3 * I ≤ T) :
    ∀ (fuel t : Nat) (last : Int) (ss : Option Nat) (smpl : List (Nat × Nat)) (mks : List Nat),
      1 ≤ fuel → T + 1 ≤ t + fuel → t < ts + I →
      (∀ s0, ss = some s0 → s0 ≤ t) →
      ∃ tr s, (detectLoop env b T I E St fuel t last ss smpl mks).exit = .completed f tr s := by
  intro fuel
  induction fuel with
  | zero =>
    intro t last ss smpl mks h1 _ _ _
    omega
  | succ fuel ih =>
    intro t last ss smpl mks _ hfuel htI hss
    by_cases hts : ts ≤ t
    · exact detectLoop_stable_completes env b T I E St f S ts hI hSt
        (fun u hu => hnew u (by omega)) hsz hS hcr htmp
        (fuel + 1) t last ss smpl mks (by omega) hfuel hts hss
        (Or.inr (Or.inr (by omega)))
    · have hT : t < T := by omega
      by_cases hat : t < ta
      · obtain ⟨names, hls, hnf⟩ := hpre t hat
        rw [step_nonew hT hls hnf]
        exact ih (t + I) last ss smpl mks (by omega) (by omega) (by omega)
          (fun s0 hs0 => by have := hss s0 hs0; omega)
      · obtain ⟨names, hls, hnf⟩ := hnew t (by omega)
        have hne : (newFiles names b).isEmpty = false := by rw [hnf]; rfl
        have hscan : scanFiles (newFiles names b) none = (false, some f) := by
          rw [hnf]
          simp [scanFiles, hcr, htmp]
        cases hszt : env.sz t f with
        | locked => exact absurd hszt (hnl t (by omega))
        | missing =>
          rw [step_missing hT hls hne hscan hszt]
          exact ih (t + I) (-1) none smpl mks (by omega) (by omega) (by omega)
            (by intro s0 hs0; cases hs0)
        | size n =>
          by_cases hcond : Int.ofNat n = last ∧ 0 < n
          · cases hssv : ss with
            | none =>
              rw [step_settimer hT hls hne hscan hszt hcond]
              refine ih (t + I) last (some t) _ mks (by omega) (by omega) (by omega) ?_
              intro s0 hs0
              simp only [Option.some.injEq] at hs0
              omega
            | some s0 =>
              by_cases hst : St ≤ t - s0
              · rw [step_return hT hls hne hscan hszt hcond hst]
                exact ⟨t, s0, rfl⟩
              · rw [step_wait hT hls hne hscan hszt hcond hst]
                refine ih (t + I) last (some s0) _ mks (by omega) (by omega) (by omega) ?_
                intro s1 hs1
                simp only [Option.some.injEq] at hs1
                have := hss s0 hssv
                omega
          · rw [step_reset hT hls hne hscan hszt hcond]
            exact ih (t + I) (Int.ofNat n) none _ mks (by omega) (by omega) (by omega)
              (by intro s0 hs0; cases hs0)

/-!
Claim theorems.
-/

/-- Claim C1, counterexample: with timeout 5, poll interval 1 and
stability threshold 3, the single non-suffixed candidate `report.pdf`
appears at instant 1 and keeps the constant positive size 100 forever,
so its size is unchanged on the window from 1 to 4, wholly before the
timeout; yet the session times out instead of returning Completed: the
code starts the stability timer only at the second equal sample, so it
needs extra poll intervals beyond the stability window. -/
theorem claim_C1_counterexample :
    (∀ u, u < 1 → envGrow.ls u = some [] ∧ newFiles [] [] = []) ∧
    (∀ u, 1 ≤ u → envGrow.ls u = some [fpdf] ∧ newFiles [fpdf] [] = [fpdf]) ∧
    (∀ u, 1 ≤ u → envGrow.sz u fpdf = .size 100) ∧
    crdownloadSuffix.isSuffixOf fpdf = false ∧ tmpSuffix.isSuffixOf fpdf = false ∧
    1 + 3 ≤ 5 ∧
    (detectR envGrow 5 1 1 3).exit = .timedOut 5 [] ∧
    pyReturn (detectR envGrow 5 1 1 3).exit = some none := by
  refine ⟨?_, ?_, ?_, by decide, by decide, by decide, by decide, by decide⟩
  · intro u hu
    have h : u = 0 := by omega
    subst h
    exact ⟨rfl, rfl⟩
  · intro u hu
    refine ⟨?_, by decide⟩
    simp [envGrow, hu]
  · intro u hu
    simp [envGrow, hu]

/-- Claim C1, amended: if the single non-suffixed candidate `f` appears
at instant `ta`, is never locked before stabilizing, and from instant
`ts ≥ ta` on has the constant positive size `S`, then the session
returns `Completed f` — provided the stability window plus three poll
intervals of sampling slack still fit inside the timeout
(`ts + stabilityThreshold + 3 * pollInterval ≤ timeout`); the slack is
needed because the stability timer starts only at the second
consecutive equal sample and completion is checked at poll instants. -/
theorem claim_C1_amended (env : Env) (T I E St : Nat) (f : Name) (S ta ts : Nat)
    (init : List Name) (h0 : env.ls 0 = some init)
    (hI : 1 ≤ I) (hSt : 1 ≤ St)
    (hcr : crdownloadSuffix.isSuffixOf f = false)
    (htmp : tmpSuffix.isSuffixOf f = false)
    (hpre : ∀ u, u < ta → ∃ names, env.ls u = some names ∧ newFiles names init = [])
    (hnew : ∀ u, ta ≤ u → ∃ names, env.ls u = some names ∧ newFiles names init = [f])
    (hnl : ∀ u, u < ts → env.sz u f ≠ .locked)
    (hsz : ∀ u, ts ≤ u → env.sz u f = .size S) (hS : 0 < S)
    (hta : ta ≤ ts) (hTbd : ts + St + 3 * I ≤ T) :
    ∃ tr s, (detectR env T I E St).exit = .completed f tr s ∧
      pyReturn (detectR env T I E St).exit = some (some f) := by
  have hred : detectR env T I E St
      = detectLoop env init T I E St (T + 1) 0 (-1) none [] [] := by
    simp only [detectR, h0]
  rw [hred]
  obtain ⟨tr, s, h⟩ := detectLoop_session_completes env init T I E St f S ta ts hI hSt
    hpre hnew hnl hsz hS hcr htmp hta hTbd (T + 1) 0 (-1) none [] []
    (by omega) (by omega) (by omega) (by intro s0 hs0; cases hs0)
  exact ⟨tr, s, h, by rw [h]; rfl⟩

/-- Claim C1, witness: the amended theorem applied to `envMain`, where
`report.pdf` appears at instant 2 with constant size 1024 and
`2 + 3 + 3 * 1 ≤ 10`. -/
theorem claim_C1_witness :
    ∃ tr s, (detectR envMain 10 1 1 3).exit = .completed fpdf tr s ∧
      pyReturn (detectR envMain 10 1 1 3).exit = some (some fpdf) := by
  refine claim_C1_amended envMain 10 1 1 3 fpdf 1024 2 2 [baseTxt] (by decide)
    (by decide) (by decide) (by decide) (by decide) ?_ ?_ ?_ ?_ (by decide)
    (by decide) (by decide)
  · intro u hu
    refine ⟨[baseTxt], ?_, by decide⟩
    simp only [envMain]
    rw [if_neg (by omega)]
  · intro u hu
    refine ⟨[baseTxt, fpdf], ?_, by decide⟩
    simp only [envMain]
    rw [if_pos hu]
  · intro u hu h
    simp only [envMain] at h
    split at h <;> simp at h
  · intro u hu
    simp [envMain, hu]

/-- Claim C2, counterexample: with the non-positive timeout 0 the
function raises no configuration error — there is no parameter
validation anywhere in `get_downloaded_filename`, and `pollInterval`
and `stabilityThreshold` are module constants it never checks.  The
baseline snapshot is still taken, the loop body never runs, and the
session returns `None` through the ordinary `TimedOut` path after the
cleanup scan. -/
theorem claim_C2_counterexample :
    (detectR envNothing 0 1 1 3).exit = .timedOut 0 [] ∧
    pyReturn (detectR envNothing 0 1 1 3).exit = some none := by decide

/-- Claim C2, amended: the code performs no parameter validation; for
any configuration, a session with timeout 0 (the only non-positive
natural timeout) takes the baseline snapshot, skips every polling
iteration, runs the cleanup scan over a fresh directory listing and
returns `None` via the `TimedOut` path — no error of any kind is
raised before or instead of polling. -/
theorem claim_C2_amended (env : Env) (I E St : Nat) (init : List Name)
    (h0 : env.ls 0 = some init) :
    (detectR env 0 I E St).exit = .timedOut 0 (cleanupList env init 0) ∧
    pyReturn (detectR env 0 I E St).exit = some none := by
  have hred : detectR env 0 I E St
      = detectLoop env init 0 I E St (0 + 1) 0 (-1) none [] [] := by
    simp only [detectR, h0]
  rw [hred, step_timeout (by omega)]
  exact ⟨rfl, rfl⟩

/-- Claim C2, witness: the amended theorem at a concrete environment
and configuration. -/
theorem claim_C2_witness :
    (detectR envNothing 0 2 1 5).exit = .timedOut 0 (cleanupList envNothing [baseTxt] 0) ∧
    pyReturn (detectR envNothing 0 2 1 5).exit = some none :=
  claim_C2_amended envNothing 2 1 5 [baseTxt] rfl

/-- Claim C3, counterexample: the mid-session `FileNotFoundError`
branch returns `None` — exactly the value the caller receives on
`TimedOut` — so the vanished directory is not surfaced as a fatal
error distinct from the timeout outcome: a vanished-directory run and
a plain timeout run hand the caller the same value. -/
theorem claim_C3_counterexample :
    (detectR envVanish 3 1 1 2).exit = .dirGone 1 ∧
    (detectR envNothing 3 1 1 2).exit = .timedOut 3 [] ∧
    pyReturn (detectR envVanish 3 1 1 2).exit = some none ∧
    pyReturn (detectR envNothing 3 1 1 2).exit =
      pyReturn (detectR envVanish 3 1 1 2).exit := by decide

/-- Claim C3, amended: if the watch directory vanishes for good at
instant `tv` (after a candidate-free prefix) and at least one poll
interval of the timeout remains, the first listing at or after `tv`
makes the session return immediately — the failed listing is not
retried and no cleanup deletion happens — but the caller receives the
plain value `None`, indistinguishable from the `TimedOut` outcome and
not a distinct error. -/
theorem claim_C3_amended (env : Env) (T I E St tv : Nat) (init : List Name)
    (hI : 1 ≤ I) (h0 : env.ls 0 = some init)
    (hpre : ∀ u, u < tv → ∃ names, env.ls u = some names ∧ newFiles names init = [])
    (hgone : ∀ u, tv ≤ u → env.ls u = none) (hTv : tv + I ≤ T) :
    ∃ tg, tv ≤ tg ∧ tg < tv + I ∧ (detectR env T I E St).exit = .dirGone tg ∧
      pyReturn (detectR env T I E St).exit = some none := by
  have hred : detectR env T I E St
      = detectLoop env init T I E St (T + 1) 0 (-1) none [] [] := by
    simp only [detectR, h0]
  rw [hred]
  obtain ⟨tg, h1, h2, h3⟩ := detectLoop_vanish env init T I E St tv hI hpre hgone hTv
    (T + 1) 0 (-1) none [] [] (by omega) (by omega) (by omega)
  exact ⟨tg, h1, h2, h3, by rw [h3]; rfl⟩

/-- Claim C3, witness: the amended theorem on a directory that
vanishes at instant 1. -/
theorem claim_C3_witness :
    ∃ tg, 1 ≤ tg ∧ tg < 1 + 1 ∧ (detectR envVanish 3 1 1 2).exit = .dirGone tg ∧
      pyReturn (detectR envVanish 3 1 1 2).exit = some none := by
  refine claim_C3_amended envVanish 3 1 1 2 1 [] (by decide) (by decide) ?_ ?_ (by decide)
  · intro u hu
    have h : u = 0 := by omega
    subst h
    exact ⟨[], rfl, rfl⟩
  · intro u hu
    simp [envVanish, hu]

/-- Claim C4: the detector never returns Completed for a zero-byte
file: if a name is observed with size 0 at every instant, no
successful return carries that name, under any configuration — even
though the zero size is stable for arbitrarily long. -/
theorem claim_C4 (env : Env) (T I E St : Nat) (f : Name)
    (h0 : ∀ u, env.sz u f = .size 0) :
    ∀ tr s, (detectR env T I E St).exit ≠ .completed f tr s := by
  intro tr s h
  cases hls : env.ls 0 with
  | none =>
    have hred : detectR env T I E St = ⟨.exn, [], []⟩ := by simp only [detectR, hls]
    rw [hred] at h
    exact ExitKind.noConfusion h
  | some init =>
    have hred : detectR env T I E St
        = detectLoop env init T I E St (T + 1) 0 (-1) none [] [] := by
      simp only [detectR, hls]
    rw [hred] at h
    obtain ⟨-, -, -, n, hn, hszn⟩ :=
      detectLoop_completed_facts env init T I E St _ _ _ _ _ _ _ _ _ h
    rw [h0 tr] at hszn
    injection hszn with hv
    omega

/-- Claim C4, witness: `report.pdf` is present from instant 1 but
always zero-byte in `envZero`; the session never completes with it. -/
theorem claim_C4_witness :
    (detectR envZero 6 1 1 2).exit ≠ .completed fpdf 4 2 :=
  claim_C4 envZero 6 1 1 2 fpdf (fun u => by simp [envZero]) 4 2

/-- Claim C5: on every sampled size change the accumulator resets, so
whenever the detector completes, a full stability threshold of
wall-clock time has elapsed since `stable_time_start` and every size
sampled in the main loop at or after `stable_time_start` equals one
constant positive value — there is no observed size change inside the
closing window, hence no early completion after a brief plateau. -/
theorem claim_C5 (env : Env) (T I E St : Nat) (hI : 1 ≤ I) (g : Name) (tr s : Nat)
    (h : (detectR env T I E St).exit = .completed g tr s) :
    St ≤ tr - s ∧ ∃ S, 0 < S ∧
      ∀ p ∈ (detectR env T I E St).samples, s ≤ p.1 → p.2 = S := by
  cases hls : env.ls 0 with
  | none =>
    have hred : detectR env T I E St = ⟨.exn, [], []⟩ := by simp only [detectR, hls]
    rw [hred] at h
    exact absurd h (by simp)
  | some init =>
    have hred : detectR env T I E St
        = detectLoop env init T I E St (T + 1) 0 (-1) none [] [] := by
      simp only [detectR, hls]
    rw [hred] at h ⊢
    refine ⟨(detectLoop_completed_facts env init T I E St _ _ _ _ _ _ _ _ _ h).2.1, ?_⟩
    obtain ⟨S, hS, hsm, -⟩ := detectLoop_stability env init T I E St hI (T + 1) 0 (-1)
      none [] [] (by simp) (by simp) (by intro s0 hs0; cases hs0) g tr s h
    exact ⟨S, hS, hsm⟩

/-- Claim C5, witness: the completed `envMain` session, whose closing
window runs from instant 3 to instant 6. -/
theorem claim_C5_witness :
    3 ≤ 6 - 3 ∧ ∃ S, 0 < S ∧
      ∀ p ∈ (detectR envMain 10 1 1 3).samples, 3 ≤ p.1 → p.2 = S :=
  claim_C5 envMain 10 1 1 3 (by decide) fpdf 6 3 (by decide)

/-- Claim C6: if no new entry ever appears in the watch directory, the
session returns exactly through the `TimedOut` path with value `None`,
and the deletion list of its cleanup phase is empty (the main loop
deletes nothing by construction). -/
theorem claim_C6 (env : Env) (T I E St : Nat) (init : List Name) (hI : 1 ≤ I)
    (h0 : env.ls 0 = some init)
    (hrun : ∀ u, ∃ names, env.ls u = some names ∧ newFiles names init = []) :
    ∃ te, (detectR env T I E St).exit = .timedOut te [] ∧
      pyReturn (detectR env T I E St).exit = some none := by
  have hred : detectR env T I E St
      = detectLoop env init T I E St (T + 1) 0 (-1) none [] [] := by
    simp only [detectR, h0]
  rw [hred]
  obtain ⟨te, h⟩ := detectLoop_no_candidates env init T I E St hI hrun (T + 1) 0 (-1)
    none [] [] (by omega) (by omega)
  exact ⟨te, h, by rw [h]; rfl⟩

/-- Claim C6, witness: a session over an unchanging directory. -/
theorem claim_C6_witness :
    ∃ te, (detectR envNothing 3 1 1 2).exit = .timedOut te [] ∧
      pyReturn (detectR envNothing 3 1 1 2).exit = some none :=
  claim_C6 envNothing 3 1 1 2 [baseTxt] (by decide) rfl
    (fun u => ⟨[baseTxt], rfl, by decide⟩)

/-- Claim C7, counterexample: a timed-out session with two post-baseline
markers: the final sibling of `a.crdownload` makes `os.path.getsize`
raise, which aborts the whole cleanup (the `except` at line 154 wraps
the loop), so `b.crdownload` — an in-progress entry whose final sibling
is absent — is not deleted, contradicting the claim that every such
entry is deleted with errors swallowed per file. -/
theorem claim_C7_counterexample :
    (detectR envCleanup 2 1 1 1).exit = .timedOut 2 [] ∧
    envCleanup.ls 2 = some [aCr, bCr] ∧
    bCr ∈ newFiles [aCr, bCr] [] ∧
    crdownloadSuffix.isSuffixOf bCr = true ∧
    envCleanup.sz 2 (splitextRoot bCr) = .missing ∧
    bCr ∉ ([] : List Name) := by decide

/-- Claim C7, amended: provided the cleanup listing succeeds and no
marker's final sibling makes `os.path.getsize` raise (such a raise
aborts the remaining cleanup), a timed-out session deletes every
post-baseline in-progress entry whose final sibling is absent or
zero-length, and leaves untouched every one whose final sibling has
positive size. -/
theorem claim_C7_amended (env : Env) (T I E St te : Nat) (del : List Name)
    (init names : List Name) (h0 : env.ls 0 = some init)
    (h : (detectR env T I E St).exit = .timedOut te del)
    (hlste : env.ls te = some names)
    (hnl : ∀ g ∈ newFiles names init, crdownloadSuffix.isSuffixOf g = true →
      env.sz te (splitextRoot g) ≠ .locked) :
    ∀ f ∈ newFiles names init, crdownloadSuffix.isSuffixOf f = true →
      ((env.sz te (splitextRoot f) = .missing ∨ env.sz te (splitextRoot f) = .size 0)
        → f ∈ del) ∧
      ∀ n, 0 < n → env.sz te (splitextRoot f) = .size n → f ∉ del := by
  have hred : detectR env T I E St
      = detectLoop env init T I E St (T + 1) 0 (-1) none [] [] := by
    simp only [detectR, h0]
  rw [hred] at h
  obtain ⟨hdel, -⟩ := detectLoop_timedOut env init T I E St _ _ _ _ _ _ _ _ h
  subst hdel
  have hclean : cleanupList env init te = cleanupLoop env te (newFiles names init) := by
    simp only [cleanupList, hlste]
  rw [hclean]
  intro f hf hsuf
  exact ⟨fun habs => cleanupLoop_deletes env te _ f hf hsuf hnl habs,
    fun n hn hszn => cleanupLoop_keeps env te _ f n hn hszn⟩

/-- Claim C7, witness: in `envCleanup2` the session times out with
markers `a.crdownload` (sibling absent — deleted) and `b.crdownload`
(sibling of size 9 — kept). -/
theorem claim_C7_witness :
    aCr ∈ cleanupList envCleanup2 [] 2 ∧ bCr ∉ cleanupList envCleanup2 [] 2 := by
  have h := claim_C7_amended envCleanup2 2 1 1 1 2 (cleanupList envCleanup2 [] 2)
    [] [aCr, bCr, bFinal] rfl (by decide) (by decide) (by decide)
  exact ⟨(h aCr (by decide) (by decide)).1 (Or.inl (by decide)),
    (h bCr (by decide) (by decide)).2 9 (by decide) (by decide)⟩

/-- Claim C8, counterexample: same environment, same timeout, same
stability threshold; with poll interval 1 the session completes, with
poll interval 2 it times out — the outcome, and the value the caller
receives, depend on the poll interval. -/
theorem claim_C8_counterexample :
    (detectR envGrow 6 1 1 3).exit = .completed fpdf 5 2 ∧
    (detectR envGrow 6 2 1 3).exit = .timedOut 6 [] ∧
    pyReturn (detectR envGrow 6 1 1 3).exit ≠ pyReturn (detectR envGrow 6 2 1 3).exit := by
  decide

/-- Claim C8, amended: stability is indeed judged by wall-clock
duration, not a sample count — for every poll interval, a completed
session satisfies `stabilityThreshold ≤ tRet - stableStart` — but the
session outcome is not invariant to the poll interval choice, because
the timer start and the completion check are quantized to poll
instants (see the counterexample). -/
theorem claim_C8_amended (env : Env) (T E St : Nat) (g : Name) :
    ∀ (I tr s : Nat), (detectR env T I E St).exit = .completed g tr s →
      St ≤ tr - s := by
  intro I tr s h
  cases hls : env.ls 0 with
  | none =>
    have hred : detectR env T I E St = ⟨.exn, [], []⟩ := by simp only [detectR, hls]
    rw [hred] at h
    exact absurd h (by simp)
  | some init =>
    have hred : detectR env T I E St
        = detectLoop env init T I E St (T + 1) 0 (-1) none [] [] := by
      simp only [detectR, hls]
    rw [hred] at h
    exact (detectLoop_completed_facts env init T I E St _ _ _ _ _ _ _ _ _ h).2.1

/-- Claim C8, witness: the completed `envGrow` session with poll
interval 1 carries a full wall-clock window. -/
theorem claim_C8_witness :
    (3 : Nat) ≤ 5 - 2 ∧ (detectR envGrow 6 1 1 3).exit = .completed fpdf 5 2 :=
  ⟨claim_C8_amended envGrow 6 1 3 fpdf 1 5 2 (by decide), by decide⟩

/-- Claim C9: no stability accumulated during the marker phase carries
over: in a completed session every instant at which the downloading
(`.crdownload`) branch was taken lies strictly before
`stable_time_start`, and a full stability window elapsed between
`stable_time_start` and the return. -/
theorem claim_C9 (env : Env) (T I E St : Nat) (hI : 1 ≤ I) (g : Name) (tr s : Nat)
    (h : (detectR env T I E St).exit = .completed g tr s) :
    St ≤ tr - s ∧ ∀ u ∈ (detectR env T I E St).markers, u < s := by
  cases hls : env.ls 0 with
  | none =>
    have hred : detectR env T I E St = ⟨.exn, [], []⟩ := by simp only [detectR, hls]
    rw [hred] at h
    exact absurd h (by simp)
  | some init =>
    have hred : detectR env T I E St
        = detectLoop env init T I E St (T + 1) 0 (-1) none [] [] := by
      simp only [detectR, hls]
    rw [hred] at h ⊢
    refine ⟨(detectLoop_completed_facts env init T I E St _ _ _ _ _ _ _ _ _ h).2.1, ?_⟩
    obtain ⟨-, -, -, hmk⟩ := detectLoop_stability env init T I E St hI (T + 1) 0 (-1)
      none [] [] (by simp) (by simp) (by intro s0 hs0; cases hs0) g tr s h
    exact hmk

/-- Claim C9, witness: in `envMarker` the marker is visible at instants
1 and 2, the rename happens at 3, and the session completes at 7 with
`stable_time_start = 4`: both marker instants precede the window. -/
theorem claim_C9_witness :
    3 ≤ 7 - 4 ∧ ∀ u ∈ (detectR envMarker 10 1 1 3).markers, u < 4 :=
  claim_C9 envMarker 10 1 1 3 (by decide) fbin 7 4 (by decide)

/-- Claim C10: a successful return names a file that is absent from the
baseline snapshot and that ends neither in `.crdownload` nor in
`.tmp`. -/
theorem claim_C10 (env : Env) (T I E St : Nat) (init : List Name)
    (h0 : env.ls 0 = some init) (f : Name) (tr s : Nat)
    (h : (detectR env T I E St).exit = .completed f tr s) :
    crdownloadSuffix.isSuffixOf f = false ∧ tmpSuffix.isSuffixOf f = false ∧
      f ∉ init := by
  have hred : detectR env T I E St
      = detectLoop env init T I E St (T + 1) 0 (-1) none [] [] := by
    simp only [detectR, h0]
  rw [hred] at h
  obtain ⟨-, -, ⟨names, -, hmem, hcr2, htmp2⟩, -⟩ :=
    detectLoop_completed_facts env init T I E St _ _ _ _ _ _ _ _ _ h
  exact ⟨hcr2, htmp2, (mem_newFiles hmem).2⟩

/-- Claim C10, witness: the completed `envMain` session returns
`report.pdf`, which is not in the baseline `[base.txt]` and carries
neither suffix. -/
theorem claim_C10_witness :
    crdownloadSuffix.isSuffixOf fpdf = false ∧ tmpSuffix.isSuffixOf fpdf = false ∧
      fpdf ∉ [baseTxt] :=
  claim_C10 envMain 10 1 1 3 [baseTxt] (by decide) fpdf 6 3 (by decide)
